import Mathlib

/-!
Verification of `pyparty/tools/manager.py` against its specification.

The module is embedded shallowly:

* `MetaParticle` is the named entry wrapping a particle (name, optional
  color, owned particle).  The particle itself is opaque apart from its
  type tag and an opaque payload.
* Python lists attached to `ParticleManager.plist` are mutable objects, so
  a small explicit store (`Store`) maps list references to list values;
  a `ParticleManager` holds a reference into the store plus the
  `fastnames` flag fixed at construction.
* `copy.copy` on a `HasTraits` object goes through
  `__reduce_ex__`/`__setstate__`/`trait_set`, which re-validates the
  `List` trait and wraps the element list in a fresh `TraitListObject`:
  the copy therefore owns a new list container holding the same element
  objects.  This is embedded as a fresh allocation (`Store.alloc`) of the
  same list value.
* Exceptions are embedded as `Except PMError`; the payloads of the raised
  messages (positions, names, counts) are captured structurally.
-/

/-- An opaque particle: only its type tag (`ptype`) and an opaque payload
are relevant to the manager.  Geometry lives outside the core. -/
structure Particle where
  ptype : String
  payload : Nat
deriving DecidableEq

/-- `MetaParticle` (from `pyparty.trait_types.metaparticle`, outside the
core sources): the named entry wrapping a particle.  `color := none`
stands for the type-specific default color.  Modelled from the spec: a
"Named Entry" pairs a unique name, an optional display color and an owned
particle, and is used as a *single*, non-iterable index key (the Python 2
class exposes no `__iter__`, so `hasattr(key, '__iter__')` is false). -/
structure MetaParticle where
  name : String
  color : Option Nat
  particle : Particle
deriving DecidableEq

/-- `MetaParticle.ptype` delegates to the wrapped particle's type tag. -/
def MetaParticle.ptype (m : MetaParticle) : String :=
  m.particle.ptype

/-- A store of mutable Python lists: `next` is the next fresh reference,
`heap` associates references to current list values. -/
structure Store where
  next : Nat
  heap : List (Nat × List MetaParticle)
deriving DecidableEq

/-- Read the list currently held by reference `r` (empty if dangling). -/
def Store.get (σ : Store) (r : Nat) : List MetaParticle :=
  (σ.heap.lookup r).getD []

/-- In-place update of the list held by reference `r`
(Python `lst[:] = ...`, `lst.append`, `del lst[i]`, ...). -/
def Store.set (σ : Store) (r : Nat) (l : List MetaParticle) : Store :=
  { σ with heap := σ.heap.map fun e => if e.1 = r then (r, l) else e }

/-- Allocate a fresh list object holding value `l`. -/
def Store.alloc (σ : Store) (l : List MetaParticle) : Store × Nat :=
  ({ next := σ.next + 1, heap := (σ.next, l) :: σ.heap }, σ.next)

/-- Reference `r` denotes an actual list object of the store. -/
def Store.valid (σ : Store) (r : Nat) : Prop :=
  (σ.heap.lookup r).isSome = true

instance (σ : Store) (r : Nat) : Decidable (σ.valid r) := by
  unfold Store.valid; infer_instance

/-- `ParticleManager`: a reference to the mutable `plist` plus the
`fastnames` flag fixed in `__init__`. -/
structure ParticleManager where
  plistRef : Nat
  fastnames : Bool
deriving DecidableEq

/-- The exceptions raised by `manager.py`, with the data carried inside
the formatted messages. -/
inductive PMError where
  /-- `ManagerError('particle %s is already named "%s"' % (idx, name))` in `add`. -/
  | managerDuplicateName (existingIdx : Nat) (name : String)
  /-- `ManagerError("%s Duplicate particle names found." % len(shared))` in `concat_particles`. -/
  | managerDuplicateNames (count : Nat)
  /-- `KeyError` from a `_namemap[...]` miss. -/
  | keyError (name : String)
  /-- `ManagerError("Index must be of type int, str or MetaParticle ...")`. -/
  | managerBadIndexType
  /-- Python `IndexError` from list indexing. -/
  | indexError
deriving DecidableEq

/-- `ParticleManager.names`: the name of every entry, in order. -/
def plistNames (l : List MetaParticle) : List String :=
  l.map fun p => p.name

/-- `_get__namemap`: `dict((pobj.name, idx) for idx, pobj in enumerate(plist))`,
looked up at one key.  A Python dict comprehension lets later bindings win,
so the lookup returns the *last* position carrying the name. -/
def namemapFind (l : List MetaParticle) (s : String) : Option Nat :=
  (l.enum.reverse.find? fun ip => ip.2.name = s).map fun ip => ip.1

/-- `ptype_count`, read at one type tag: the number of entries of that
type (a missing dict key is caught and treated as count 0, which agrees
with the plain count). -/
def ptype_count (l : List MetaParticle) (t : String) : Nat :=
  (l.filter fun p => p.ptype = t).length

/-- Modelled from the spec: the auto-name separator `NAMESEP` is imported
from `pyparty.config`, which is not among the sources; the spec's example
names (`circle_0`, ..., `dimer_4`) fix it to an underscore. -/
def NAMESEP : String := "_"

/-- Python `list.insert(i, a)`: negative indices count from the end and
are clamped at 0, indices past the end append. -/
def pyInsert (l : List MetaParticle) (i : Int) (a : MetaParticle) : List MetaParticle :=
  let n : Int := l.length
  let j : Int := if i < 0 then max (n + i) 0 else min i n
  l.take j.toNat ++ a :: l.drop j.toNat

/-- The auto-naming policy of `ParticleManager.add`:
`fastnames=True` uses the resolved insertion index as the counter,
`fastnames=False` uses the per-type count of existing entries
(`self.ptype_count[ptype]`, 0 on a `KeyError`). -/
def autoName (fastnames : Bool) (l : List MetaParticle) (ptype : String)
    (idx : Int) : String :=
  if fastnames then ptype ++ NAMESEP ++ toString idx
  else ptype ++ NAMESEP ++ toString (ptype_count l ptype)

/-- `ParticleManager.add`, list level: resolves the insertion index
(`if not idx: idx = len(self)` — note Python falsiness treats an explicit
index 0 like an unsupplied one), auto-generates the name when none is
supplied (`fastnames` picks the counter), rejects duplicate names, then
appends or inserts the new `MetaParticle`.  The `particle` argument is
the already-constructed particle; a string argument would first go to the
external factory `_make_particle`, which the claims do not touch. -/
def addP (fastnames : Bool) (l : List MetaParticle) (particle : Particle)
    (name : String) (idx? : Option Int) (color : Option Nat) :
    Except PMError (List MetaParticle) :=
  let idx : Int := match idx? with
    | none => (l.length : Int)
    | some i => if i = 0 then (l.length : Int) else i
  let name := if name = "" then autoName fastnames l particle.ptype idx else name
  match namemapFind l name with
  | some j => .error (.managerDuplicateName j name)
  | none =>
    let meta : MetaParticle :=
      { name := name, color := color, particle := particle }
    if idx = (l.length : Int) then .ok (l ++ [meta])
    else .ok (pyInsert l idx meta)

/-- `ParticleManager.add`, store level: the mutation of `self.plist`
happens only after all checks pass; a raised error leaves the store as it
was. -/
def ParticleManager.add (σ : Store) (pm : ParticleManager) (particle : Particle)
    (name : String) (idx? : Option Int) (color : Option Nat) :
    Store × Except PMError Unit :=
  match addP pm.fastnames (σ.get pm.plistRef) particle name idx? color with
  | .error e => (σ, .error e)
  | .ok l' => (σ.set pm.plistRef l', .ok ())

/-- `shared = [name for name in p1.names if name in p2.names]`. -/
def sharedNames (l1 l2 : List MetaParticle) : List String :=
  (plistNames l1).filter fun n => (plistNames l2).contains n

/-- Python 2 `map(None, a, b)`: zip to the longer length, padding the
exhausted side with `None`. -/
def zipLongest {α : Type} : List α → List α → List (Option α × Option α)
  | [], ys => ys.map fun y => (none, some y)
  | x :: xs, [] => (some x, none) :: zipLongest xs []
  | x :: xs, y :: ys => (some x, some y) :: zipLongest xs ys

/-- The alternate-merge interleave of `concat_particles`:
`pout = [p for pout in map(None, p1_temp, p2) for p in pout]` followed by
`[p for p in pout if p is not None]`. -/
def interleaveCode {α : Type} (a b : List α) : List α :=
  ((zipLongest a b).flatMap fun p => [p.1, p.2]).filterMap id

/-- Shared tail of `concat_particles`: build `pout`, rebuild it when
`alternate`, and wrap it in `ParticleManager(plist=pout)` (a fresh list
object, `fastnames` left at its default `False`). -/
def concatFinish (σ : Store) (lt l2 : List MetaParticle) (alternate : Bool) :
    Store × Except PMError ParticleManager :=
  let pout := lt ++ l2
  let pout := if alternate then interleaveCode lt l2 else pout
  let a := σ.alloc pout
  (a.1, .ok ⟨a.2, false⟩)

/-- `concat_particles(p1, p2, alternate, overwrite)`.  `p1_temp =
copy.copy(p1)` allocates a fresh list container holding `p1`'s entries
(see the module comment); on shared names the copy — never `p1` itself —
is pruned when `overwrite`, otherwise a `ManagerError` is raised with the
number of duplicates. -/
def concat_particles (σ : Store) (p1 p2 : ParticleManager)
    (alternate overwrite : Bool) : Store × Except PMError ParticleManager :=
  let l1 := σ.get p1.plistRef
  let l2 := σ.get p2.plistRef
  let a := σ.alloc l1
  let σ1 := a.1
  let tempRef := a.2
  let shared := sharedNames l1 l2
  if shared.isEmpty then
    concatFinish σ1 l1 l2 alternate
  else if overwrite then
    let pruned := l1.filter fun p => ¬ shared.contains p.name
    let σ2 := σ1.set tempRef pruned
    concatFinish σ2 pruned l2 alternate
  else
    (σ1, .error (.managerDuplicateNames shared.length))

/-- `subtract_particles(p1, p2)`: copy `p1`, then rebuild the copy's list
without the entries whose names also appear in `p2`; the copy is
returned. -/
def subtract_particles (σ : Store) (p1 p2 : ParticleManager) :
    Store × ParticleManager :=
  let l1 := σ.get p1.plistRef
  let l2 := σ.get p2.plistRef
  let a := σ.alloc l1
  let shared := sharedNames l1 l2
  let σ2 := a.1.set a.2 (l1.filter fun p => ¬ shared.contains p.name)
  (σ2, ⟨a.2, p1.fastnames⟩)

/-- `sortby(attr, inplace)`: stably sort `plist` by an attribute
(`sorted` with `attrgetter(attr)` is a stable sort, embedded as a stable
insertion sort over an explicit string-valued key function); in place
when requested, otherwise wrapped in `ParticleManager(plist=plistout)`
with the default `fastnames=False`. -/
def ParticleManager.sortby (σ : Store) (pm : ParticleManager)
    (key : MetaParticle → String) (inplace : Bool) :
    Store × Option ParticleManager :=
  let plistout := List.insertionSort (fun a b => key a ≤ key b) (σ.get pm.plistRef)
  if inplace then (σ.set pm.plistRef plistout, none)
  else
    let a := σ.alloc plistout
    (a.1, some ⟨a.2, false⟩)

-- ### Store lemmas

theorem Store.get_alloc_self (σ : Store) (l : List MetaParticle) :
    (σ.alloc l).1.get (σ.alloc l).2 = l := by
  simp [Store.alloc, Store.get, List.lookup]

theorem Store.get_alloc_ne (σ : Store) (l : List MetaParticle) (r : Nat)
    (h : r ≠ σ.next) : (σ.alloc l).1.get r = σ.get r := by
  have hb : (r == σ.next) = false := beq_eq_false_iff_ne.mpr h
  simp only [Store.alloc, Store.get, List.lookup_cons, hb]

theorem Store.lookup_map_setfn (r r' : Nat) (v : List MetaParticle)
    (es : List (Nat × List MetaParticle)) (h : r ≠ r') :
    (es.map fun e => if e.1 = r' then (r', v) else e).lookup r = es.lookup r := by
  induction es with
  | nil => rfl
  | cons e es ih =>
    obtain ⟨k, w⟩ := e
    have h1 : (r == r') = false := beq_eq_false_iff_ne.mpr h
    simp only [List.map_cons, List.lookup_cons]
    by_cases he : k = r'
    · subst he
      simp only [if_true, List.lookup_cons, h1]
      exact ih
    · simp only [if_neg he, List.lookup_cons]
      cases hre : (r == k) with
      | true => rfl
      | false => exact ih

theorem Store.get_set_ne (σ : Store) (r r' : Nat) (v : List MetaParticle)
    (h : r ≠ r') : (σ.set r' v).get r = σ.get r := by
  simp only [Store.set, Store.get]
  rw [Store.lookup_map_setfn r r' v σ.heap h]

theorem Store.lookup_map_setfn_self (r : Nat) (v : List MetaParticle)
    (es : List (Nat × List MetaParticle)) (h : (es.lookup r).isSome = true) :
    (es.map fun e => if e.1 = r then (r, v) else e).lookup r = some v := by
  induction es with
  | nil => simp [List.lookup] at h
  | cons e es ih =>
    obtain ⟨k, w⟩ := e
    simp only [List.map_cons, List.lookup_cons] at h ⊢
    by_cases he : k = r
    · subst he
      simp [List.lookup_cons]
    · have h2 : (r == k) = false := beq_eq_false_iff_ne.mpr fun hh => he hh.symm
      simp only [h2] at h
      simp only [if_neg he, List.lookup_cons, h2]
      exact ih h

theorem Store.get_set_self (σ : Store) (r : Nat) (v : List MetaParticle)
    (h : σ.valid r) : (σ.set r v).get r = v := by
  simp only [Store.set, Store.get]
  rw [Store.lookup_map_setfn_self r v σ.heap h]
  rfl

theorem Store.next_set (σ : Store) (r : Nat) (v : List MetaParticle) :
    (σ.set r v).next = σ.next := rfl

theorem Store.valid_alloc_self (σ : Store) (l : List MetaParticle) :
    (σ.alloc l).1.valid (σ.alloc l).2 := by
  simp [Store.alloc, Store.valid, List.lookup]

-- ### Interleave: code vs. spec

/-- Spec-side interleave, from the spec's words: "interleave remaining
a/b entries position-by-position (a0,b0,a1,b1,…); when one side is
exhausted ... the longer side's remaining entries are still included
afterward". -/
def interleaveSpec {α : Type} (a b : List α) : List α :=
  ((a.zip b).flatMap fun p => [p.1, p.2]) ++ List.drop b.length a ++ List.drop a.length b

theorem interleaveCode_nil_left {α : Type} (b : List α) :
    interleaveCode [] b = b := by
  induction b with
  | nil => rfl
  | cons y ys ih =>
    simpa [interleaveCode, zipLongest, List.filterMap_cons] using ih

theorem interleaveCode_nil_right {α : Type} (a : List α) :
    interleaveCode a [] = a := by
  induction a with
  | nil => rfl
  | cons x xs ih =>
    simpa [interleaveCode, zipLongest, List.filterMap_cons] using ih

theorem interleaveCode_cons {α : Type} (x y : α) (a b : List α) :
    interleaveCode (x :: a) (y :: b) = x :: y :: interleaveCode a b := by
  simp [interleaveCode, zipLongest, List.filterMap_cons]

theorem interleaveCode_eq_spec {α : Type} (a b : List α) :
    interleaveCode a b = interleaveSpec a b := by
  induction a generalizing b with
  | nil =>
    rw [interleaveCode_nil_left]
    simp [interleaveSpec]
  | cons x xs ih =>
    cases b with
    | nil =>
      rw [interleaveCode_nil_right]
      simp [interleaveSpec]
    | cons y ys =>
      rw [interleaveCode_cons, ih]
      simp only [interleaveSpec, List.zip_cons_cons, List.flatMap_cons, List.length_cons,
        List.drop_succ_cons, List.cons_append, List.append_assoc, List.nil_append]

theorem interleaveSpec_perm {α : Type} (a b : List α) :
    (interleaveSpec a b).Perm (a ++ b) := by
  induction a generalizing b with
  | nil => simp [interleaveSpec]
  | cons x xs ih =>
    cases b with
    | nil => simp [interleaveSpec]
    | cons y ys =>
      have h1 : interleaveSpec (x :: xs) (y :: ys) = x :: y :: interleaveSpec xs ys := by
        simp only [interleaveSpec, List.zip_cons_cons, List.flatMap_cons, List.length_cons,
          List.drop_succ_cons, List.cons_append, List.append_assoc, List.nil_append]
      rw [h1]
      refine List.Perm.cons x ?_
      refine ((ih ys).cons y).trans ?_
      exact List.perm_middle.symm

-- ### Unfolding lemmas for `concat_particles` / `subtract_particles`

theorem concatFinish_eq (σ : Store) (lt l2 : List MetaParticle) (alt : Bool) :
    concatFinish σ lt l2 alt =
      ((σ.alloc (if alt then interleaveCode lt l2 else lt ++ l2)).1,
        .ok ⟨σ.next, false⟩) := by
  cases alt <;> rfl

theorem concat_eq_of_no_shared (σ : Store) (p1 p2 : ParticleManager) (alt ow : Bool)
    (hsh : sharedNames (σ.get p1.plistRef) (σ.get p2.plistRef) = []) :
    concat_particles σ p1 p2 alt ow =
      concatFinish (σ.alloc (σ.get p1.plistRef)).1
        (σ.get p1.plistRef) (σ.get p2.plistRef) alt := by
  simp only [concat_particles, hsh]
  rfl

theorem concat_eq_of_shared_overwrite (σ : Store) (p1 p2 : ParticleManager) (alt : Bool)
    (hsh : ¬ (sharedNames (σ.get p1.plistRef) (σ.get p2.plistRef)).isEmpty = true) :
    concat_particles σ p1 p2 alt true =
      concatFinish
        ((σ.alloc (σ.get p1.plistRef)).1.set σ.next
          ((σ.get p1.plistRef).filter fun p =>
            ¬ (sharedNames (σ.get p1.plistRef) (σ.get p2.plistRef)).contains p.name))
        ((σ.get p1.plistRef).filter fun p =>
          ¬ (sharedNames (σ.get p1.plistRef) (σ.get p2.plistRef)).contains p.name)
        (σ.get p2.plistRef) alt := by
  simp only [concat_particles, if_neg hsh]
  rfl

theorem concat_eq_of_shared_error (σ : Store) (p1 p2 : ParticleManager) (alt : Bool)
    (hsh : ¬ (sharedNames (σ.get p1.plistRef) (σ.get p2.plistRef)).isEmpty = true) :
    concat_particles σ p1 p2 alt false =
      ((σ.alloc (σ.get p1.plistRef)).1,
        .error (.managerDuplicateNames
          (sharedNames (σ.get p1.plistRef) (σ.get p2.plistRef)).length)) := by
  simp only [concat_particles, if_neg hsh]
  rfl

theorem subtract_eq (σ : Store) (p1 p2 : ParticleManager) :
    subtract_particles σ p1 p2 =
      ((σ.alloc (σ.get p1.plistRef)).1.set σ.next
        ((σ.get p1.plistRef).filter fun p =>
          ¬ (sharedNames (σ.get p1.plistRef) (σ.get p2.plistRef)).contains p.name),
        ⟨σ.next, p1.fastnames⟩) := rfl

-- ### Frame lemmas for the set operations

theorem concatFinish_get_ne (σ : Store) (lt l2 : List MetaParticle) (alt : Bool)
    (r : Nat) (h : r ≠ σ.next) :
    (concatFinish σ lt l2 alt).1.get r = σ.get r := by
  rw [concatFinish_eq]
  exact Store.get_alloc_ne σ _ r h

theorem concat_get_frame (σ : Store) (p1 p2 : ParticleManager) (alt ow : Bool)
    (r : Nat) (h : r < σ.next) :
    (concat_particles σ p1 p2 alt ow).1.get r = σ.get r := by
  have hne : r ≠ σ.next := Nat.ne_of_lt h
  have hne1 : r ≠ σ.next + 1 := Nat.ne_of_lt (Nat.lt_succ_of_lt h)
  by_cases hsh : (sharedNames (σ.get p1.plistRef) (σ.get p2.plistRef)).isEmpty = true
  · have hl : sharedNames (σ.get p1.plistRef) (σ.get p2.plistRef) = [] :=
      List.isEmpty_iff.mp hsh
    rw [concat_eq_of_no_shared σ p1 p2 alt ow hl, concatFinish_get_ne _ _ _ _ _ hne1]
    exact Store.get_alloc_ne σ _ r hne
  · cases ow with
    | true =>
      rw [concat_eq_of_shared_overwrite σ p1 p2 alt hsh, concatFinish_get_ne _ _ _ _ _ hne1,
        Store.get_set_ne _ _ _ _ hne]
      exact Store.get_alloc_ne σ _ r hne
    | false =>
      rw [concat_eq_of_shared_error σ p1 p2 alt hsh]
      exact Store.get_alloc_ne σ _ r hne

theorem concat_ok_ref (σ : Store) (p1 p2 : ParticleManager) (alt ow : Bool)
    (pm' : ParticleManager) (h : (concat_particles σ p1 p2 alt ow).2 = .ok pm') :
    pm'.plistRef = σ.next + 1 ∧ pm'.fastnames = false := by
  by_cases hsh : (sharedNames (σ.get p1.plistRef) (σ.get p2.plistRef)).isEmpty = true
  · have hl : sharedNames (σ.get p1.plistRef) (σ.get p2.plistRef) = [] :=
      List.isEmpty_iff.mp hsh
    rw [concat_eq_of_no_shared σ p1 p2 alt ow hl, concatFinish_eq] at h
    cases h
    exact ⟨rfl, rfl⟩
  · cases ow with
    | true =>
      rw [concat_eq_of_shared_overwrite σ p1 p2 alt hsh, concatFinish_eq] at h
      cases h
      exact ⟨rfl, rfl⟩
    | false =>
      rw [concat_eq_of_shared_error σ p1 p2 alt hsh] at h
      cases h

theorem subtract_get_frame (σ : Store) (p1 p2 : ParticleManager)
    (r : Nat) (h : r < σ.next) :
    (subtract_particles σ p1 p2).1.get r = σ.get r := by
  rw [subtract_eq, Store.get_set_ne _ _ _ _ (Nat.ne_of_lt h)]
  exact Store.get_alloc_ne σ _ r (Nat.ne_of_lt h)

/-- C1: for every pair of Engines and every combination of the
`alternate`/`overwrite` flags, `merge` (`concat_particles`) leaves the
entry lists of both inputs exactly as they were — also on the error path,
where the `ManagerError` is raised before anything is mutated — and
returns a freshly allocated Engine; likewise `subtract`
(`subtract_particles`) leaves both inputs unchanged. -/
theorem merge_and_subtract_leave_inputs_untouched (σ : Store)
    (p1 p2 : ParticleManager) (alternate overwrite : Bool)
    (h1 : p1.plistRef < σ.next) (h2 : p2.plistRef < σ.next) :
    ((concat_particles σ p1 p2 alternate overwrite).1.get p1.plistRef
        = σ.get p1.plistRef ∧
     (concat_particles σ p1 p2 alternate overwrite).1.get p2.plistRef
        = σ.get p2.plistRef) ∧
    (∀ pm', (concat_particles σ p1 p2 alternate overwrite).2 = .ok pm' →
        pm'.plistRef ≠ p1.plistRef ∧ pm'.plistRef ≠ p2.plistRef) ∧
    ((subtract_particles σ p1 p2).1.get p1.plistRef = σ.get p1.plistRef ∧
     (subtract_particles σ p1 p2).1.get p2.plistRef = σ.get p2.plistRef) := by
  refine ⟨⟨concat_get_frame σ p1 p2 alternate overwrite _ h1,
           concat_get_frame σ p1 p2 alternate overwrite _ h2⟩, ?_,
          subtract_get_frame σ p1 p2 _ h1, subtract_get_frame σ p1 p2 _ h2⟩
  intro pm' hok
  have href := (concat_ok_ref σ p1 p2 alternate overwrite pm' hok).1
  rw [href]
  omega

/-- Sample entries and a sample store used to instantiate the
hypothesis-bearing theorems at concrete inputs. -/
def sampleA : MetaParticle := ⟨"circle_0", none, ⟨"circle", 0⟩⟩

def sampleB : MetaParticle := ⟨"circle_1", none, ⟨"circle", 1⟩⟩

def sampleC : MetaParticle := ⟨"dimer_0", none, ⟨"dimer", 2⟩⟩

def sampleStore : Store := ⟨2, [(0, [sampleA, sampleB]), (1, [sampleC])]⟩

def samplePM1 : ParticleManager := ⟨0, true⟩

def samplePM2 : ParticleManager := ⟨1, false⟩

theorem merge_and_subtract_leave_inputs_untouched_witness :
    ((concat_particles sampleStore samplePM1 samplePM2 true false).1.get samplePM1.plistRef
        = sampleStore.get samplePM1.plistRef ∧
     (concat_particles sampleStore samplePM1 samplePM2 true false).1.get samplePM2.plistRef
        = sampleStore.get samplePM2.plistRef) ∧
    (∀ pm', (concat_particles sampleStore samplePM1 samplePM2 true false).2 = .ok pm' →
        pm'.plistRef ≠ samplePM1.plistRef ∧ pm'.plistRef ≠ samplePM2.plistRef) ∧
    ((subtract_particles sampleStore samplePM1 samplePM2).1.get samplePM1.plistRef
        = sampleStore.get samplePM1.plistRef ∧
     (subtract_particles sampleStore samplePM1 samplePM2).1.get samplePM2.plistRef
        = sampleStore.get samplePM2.plistRef) :=
  merge_and_subtract_leave_inputs_untouched sampleStore samplePM1 samplePM2 true false
    (by decide) (by decide)

/-- The left operand's entries after the overwrite pruning performed by
`concat_particles` (unchanged when no names are shared). -/
def prunedLeft (l1 l2 : List MetaParticle) : List MetaParticle :=
  if (sharedNames l1 l2).isEmpty then l1
  else l1.filter fun p => ¬ (sharedNames l1 l2).contains p.name

/-- C7: merging two Engines with disjoint names (`alternate=False`,
`overwrite=False`) yields an Engine whose length is the sum of the two
lengths and whose names are exactly the first operand's names followed by
the second operand's names. -/
theorem merge_disjoint_concatenates (σ : Store) (p1 p2 : ParticleManager)
    (hsh : sharedNames (σ.get p1.plistRef) (σ.get p2.plistRef) = []) :
    ∃ pm', (concat_particles σ p1 p2 false false).2 = .ok pm' ∧
      ((concat_particles σ p1 p2 false false).1.get pm'.plistRef).length
        = (σ.get p1.plistRef).length + (σ.get p2.plistRef).length ∧
      plistNames ((concat_particles σ p1 p2 false false).1.get pm'.plistRef)
        = plistNames (σ.get p1.plistRef) ++ plistNames (σ.get p2.plistRef) := by
  rw [concat_eq_of_no_shared σ p1 p2 false false hsh, concatFinish_eq]
  refine ⟨⟨(σ.alloc (σ.get p1.plistRef)).1.next, false⟩, rfl, ?_, ?_⟩
  · rw [show ((σ.alloc (σ.get p1.plistRef)).1.alloc
        (if false then interleaveCode (σ.get p1.plistRef) (σ.get p2.plistRef)
         else σ.get p1.plistRef ++ σ.get p2.plistRef)).1.get
        (σ.alloc (σ.get p1.plistRef)).1.next
      = σ.get p1.plistRef ++ σ.get p2.plistRef from
        Store.get_alloc_self (σ.alloc (σ.get p1.plistRef)).1 _]
    exact List.length_append _ _
  · rw [show ((σ.alloc (σ.get p1.plistRef)).1.alloc
        (if false then interleaveCode (σ.get p1.plistRef) (σ.get p2.plistRef)
         else σ.get p1.plistRef ++ σ.get p2.plistRef)).1.get
        (σ.alloc (σ.get p1.plistRef)).1.next
      = σ.get p1.plistRef ++ σ.get p2.plistRef from
        Store.get_alloc_self (σ.alloc (σ.get p1.plistRef)).1 _]
    exact List.map_append _ _ _

theorem merge_disjoint_concatenates_witness :
    ∃ pm', (concat_particles sampleStore samplePM1 samplePM2 false false).2 = .ok pm' ∧
      ((concat_particles sampleStore samplePM1 samplePM2 false false).1.get pm'.plistRef).length
        = (sampleStore.get samplePM1.plistRef).length
          + (sampleStore.get samplePM2.plistRef).length ∧
      plistNames ((concat_particles sampleStore samplePM1 samplePM2 false false).1.get
          pm'.plistRef)
        = plistNames (sampleStore.get samplePM1.plistRef)
          ++ plistNames (sampleStore.get samplePM2.plistRef) :=
  merge_disjoint_concatenates sampleStore samplePM1 samplePM2 (by decide)

/-- C6: merging with `alternate=True` two Engines whose names are
disjoint (after the overwrite pruning of the first operand, when any)
interleaves the entries position by position, appends the longer side's
remaining entries, and drops no entry: the output is a permutation of all
remaining entries of both operands. -/
theorem merge_alternate_interleaves (σ : Store) (p1 p2 : ParticleManager) (ow : Bool)
    (h : sharedNames (σ.get p1.plistRef) (σ.get p2.plistRef) = [] ∨ ow = true) :
    ∃ pm', (concat_particles σ p1 p2 true ow).2 = .ok pm' ∧
      (concat_particles σ p1 p2 true ow).1.get pm'.plistRef
        = interleaveSpec (prunedLeft (σ.get p1.plistRef) (σ.get p2.plistRef))
            (σ.get p2.plistRef) ∧
      ((concat_particles σ p1 p2 true ow).1.get pm'.plistRef).Perm
        (prunedLeft (σ.get p1.plistRef) (σ.get p2.plistRef) ++ σ.get p2.plistRef) := by
  by_cases hsh : (sharedNames (σ.get p1.plistRef) (σ.get p2.plistRef)).isEmpty = true
  · have hl : sharedNames (σ.get p1.plistRef) (σ.get p2.plistRef) = [] :=
      List.isEmpty_iff.mp hsh
    have hp : prunedLeft (σ.get p1.plistRef) (σ.get p2.plistRef) = σ.get p1.plistRef := by
      unfold prunedLeft
      rw [if_pos hsh]
    rw [concat_eq_of_no_shared σ p1 p2 true ow hl, concatFinish_eq, hp]
    refine ⟨⟨(σ.alloc (σ.get p1.plistRef)).1.next, false⟩, rfl, ?_⟩
    rw [show ((σ.alloc (σ.get p1.plistRef)).1.alloc
        (if true then interleaveCode (σ.get p1.plistRef) (σ.get p2.plistRef)
         else σ.get p1.plistRef ++ σ.get p2.plistRef)).1.get
        (σ.alloc (σ.get p1.plistRef)).1.next
      = interleaveCode (σ.get p1.plistRef) (σ.get p2.plistRef) from
        Store.get_alloc_self (σ.alloc (σ.get p1.plistRef)).1 _]
    rw [interleaveCode_eq_spec]
    exact ⟨rfl, interleaveSpec_perm _ _⟩
  · have how : ow = true := by
      cases h with
      | inl hl => exact absurd (List.isEmpty_iff.mpr hl) hsh
      | inr hr => exact hr
    subst how
    have hp : prunedLeft (σ.get p1.plistRef) (σ.get p2.plistRef)
        = (σ.get p1.plistRef).filter fun p =>
            ¬ (sharedNames (σ.get p1.plistRef) (σ.get p2.plistRef)).contains p.name := by
      unfold prunedLeft
      rw [if_neg hsh]
    rw [concat_eq_of_shared_overwrite σ p1 p2 true hsh, concatFinish_eq, hp]
    refine ⟨⟨_, false⟩, rfl, ?_⟩
    rw [show ∀ σ2 : Store, ∀ lt l2 : List MetaParticle,
        (σ2.alloc (if true then interleaveCode lt l2 else lt ++ l2)).1.get σ2.next
          = interleaveCode lt l2 from fun σ2 lt l2 =>
        Store.get_alloc_self σ2 _]
    rw [interleaveCode_eq_spec]
    exact ⟨rfl, interleaveSpec_perm _ _⟩

theorem merge_alternate_interleaves_witness :
    ∃ pm', (concat_particles sampleStore samplePM1 samplePM2 true false).2 = .ok pm' ∧
      (concat_particles sampleStore samplePM1 samplePM2 true false).1.get pm'.plistRef
        = interleaveSpec
            (prunedLeft (sampleStore.get samplePM1.plistRef)
              (sampleStore.get samplePM2.plistRef))
            (sampleStore.get samplePM2.plistRef) ∧
      ((concat_particles sampleStore samplePM1 samplePM2 true false).1.get pm'.plistRef).Perm
        (prunedLeft (sampleStore.get samplePM1.plistRef)
            (sampleStore.get samplePM2.plistRef)
          ++ sampleStore.get samplePM2.plistRef) :=
  merge_alternate_interleaves sampleStore samplePM1 samplePM2 false (Or.inl (by decide))

-- ### Soundness of the name map

theorem namemapFind_sound (l : List MetaParticle) (s : String) (j : Nat)
    (h : namemapFind l s = some j) :
    ∃ hj : j < l.length, (l.get ⟨j, hj⟩).name = s := by
  unfold namemapFind at h
  cases hf : l.enum.reverse.find? (fun ip => ip.2.name = s) with
  | none => rw [hf] at h; cases h
  | some ip =>
    rw [hf] at h
    obtain ⟨i, x⟩ := ip
    cases h
    have hp : x.name = s := by simpa using List.find?_some hf
    have hmem : (i, x) ∈ l.enum := List.mem_reverse.mp (List.mem_of_find?_eq_some hf)
    have hget : l[i]? = some x := List.mk_mem_enum_iff_getElem?.mp hmem
    obtain ⟨hlt, hx⟩ := List.getElem?_eq_some.mp hget
    refine ⟨hlt, ?_⟩
    rw [show l.get ⟨i, hlt⟩ = x by simpa using hx]
    exact hp

/-- C3: an `add` that supplies a name already present fails with the
`ManagerError` carrying the existing entry's position and the colliding
name, and returns the store exactly as it was — the Engine's entries,
order and length are untouched. -/
theorem add_duplicate_name_rejected (σ : Store) (pm : ParticleManager)
    (particle : Particle) (name : String) (idx? : Option Int) (color : Option Nat)
    (j : Nat) (hn : name ≠ "")
    (hj : namemapFind (σ.get pm.plistRef) name = some j) :
    ParticleManager.add σ pm particle name idx? color
      = (σ, .error (.managerDuplicateName j name)) ∧
    ∃ hjl : j < (σ.get pm.plistRef).length,
      ((σ.get pm.plistRef).get ⟨j, hjl⟩).name = name := by
  refine ⟨?_, namemapFind_sound _ _ _ hj⟩
  unfold ParticleManager.add
  simp only [addP, if_neg hn, hj]

theorem add_duplicate_name_rejected_witness :
    ParticleManager.add sampleStore samplePM1 ⟨"circle", 9⟩ "circle_1" none none
      = (sampleStore, .error (.managerDuplicateName 1 "circle_1")) ∧
    ∃ hjl : 1 < (sampleStore.get samplePM1.plistRef).length,
      ((sampleStore.get samplePM1.plistRef).get ⟨1, hjl⟩).name = "circle_1" :=
  add_duplicate_name_rejected sampleStore samplePM1 ⟨"circle", 9⟩ "circle_1" none none 1
    (by decide) (by decide)

/-- C8: an explicit insertion position 0 is falsy in Python, so
`add(..., idx=0)` behaves exactly like an `add` without a position: the
new entry is appended at the end (position = current length), never
inserted at the front. -/
theorem add_position_zero_appends (fastnames : Bool) (l : List MetaParticle)
    (particle : Particle) (name : String) (color : Option Nat) :
    addP fastnames l particle name (some 0) color
      = addP fastnames l particle name none color ∧
    (∀ l', addP fastnames l particle name (some 0) color = .ok l' →
      ∃ m, l' = l ++ [m]) := by
  have he : addP fastnames l particle name (some 0) color
      = addP fastnames l particle name none color := by
    unfold addP
    simp
  refine ⟨he, ?_⟩
  intro l' h
  rw [he] at h
  simp only [addP] at h
  generalize (if name = "" then autoName fastnames l particle.ptype (l.length : Int)
      else name) = nm at h
  cases hf : namemapFind l nm with
  | some j => rw [hf] at h; cases h
  | none =>
    rw [hf] at h
    simp only [if_pos rfl] at h
    cases h
    exact ⟨_, rfl⟩

theorem add_position_zero_appends_witness :
    (addP true [sampleA, sampleB] ⟨"dimer", 7⟩ "d0" (some 0) none
      = addP true [sampleA, sampleB] ⟨"dimer", 7⟩ "d0" none none ∧
    (∀ l', addP true [sampleA, sampleB] ⟨"dimer", 7⟩ "d0" (some 0) none = .ok l' →
      ∃ m, l' = [sampleA, sampleB] ++ [m])) :=
  add_position_zero_appends true [sampleA, sampleB] ⟨"dimer", 7⟩ "d0" none

-- ### The auto-naming sequence of the spec

/-- Five successive `add` calls with no explicit name, starting from an
empty Engine (`addP` threaded through the list of type tags). -/
def addSeq (fastnames : Bool) :
    List String → List MetaParticle → Except PMError (List MetaParticle)
  | [], l => .ok l
  | t :: ts, l =>
    match addP fastnames l ⟨t, 0⟩ "" none none with
    | .error e => .error e
    | .ok l' => addSeq fastnames ts l'

/-- C2: adding 3 `circle`s then 2 `dimer`s with auto-naming yields
`circle_0, circle_1, circle_2, dimer_3, dimer_4` under `fastnames=True`
and `circle_0, circle_1, circle_2, dimer_0, dimer_1` under
`fastnames=False`. -/
theorem autoname_sequences :
    Except.map plistNames
        (addSeq true ["circle", "circle", "circle", "dimer", "dimer"] [])
      = .ok ["circle_0", "circle_1", "circle_2", "dimer_3", "dimer_4"] ∧
    Except.map plistNames
        (addSeq false ["circle", "circle", "circle", "dimer", "dimer"] [])
      = .ok ["circle_0", "circle_1", "circle_2", "dimer_0", "dimer_1"] := by
  constructor <;> rfl

-- ### Index keys and their resolution

/-- A single, non-iterable index key accepted by `_unmask_index`
(an `int`, a name string, or a `MetaParticle`). -/
inductive PKey1 where
  | pos (i : Int)
  | name (s : String)
  | meta (m : MetaParticle)
deriving DecidableEq

/-- An index key as received by `__getitem__` / `__delitem__`: a single
non-iterable key (`int`, two-argument `slice`, name string,
`MetaParticle`), a boolean numpy mask, or an iterable of single keys. -/
inductive PKey where
  | pos (i : Int)
  | slice (a b : Option Int)
  | name (s : String)
  | meta (m : MetaParticle)
  | mask (bs : List Bool)
  | keys (ks : List PKey1)
deriving DecidableEq

/-- `_unmask_index` on a non-slice key: an `int` passes through, a string
or a `MetaParticle`'s name is looked up in `_namemap` (a miss raises
`KeyError`). -/
def unmask_index1 (l : List MetaParticle) : PKey1 → Except PMError Int
  | .pos i => .ok i
  | .name s =>
    match namemapFind l s with
    | some j => .ok (j : Int)
    | none => .error (.keyError s)
  | .meta m =>
    match namemapFind l m.name with
    | some j => .ok (j : Int)
    | none => .error (.keyError m.name)

/-- Python `l[i]` for an `int` index: negative indices count from the
end; out-of-range raises `IndexError`. -/
def pyElem (l : List MetaParticle) (i : Int) : Except PMError MetaParticle :=
  let j : Int := if i < 0 then i + l.length else i
  if j < 0 then .error .indexError
  else
    match l.get? j.toNat with
    | some a => .ok a
    | none => .error .indexError

/-- Clamp one bound of a two-argument Python slice (`none` = omitted). -/
def sliceNorm (n : Nat) (dflt : Nat) (o : Option Int) : Nat :=
  match o with
  | none => dflt
  | some i => if i < 0 then (i + n).toNat else min i.toNat n

/-- Python `l[a:b]` (step 1): clamped, never raising. -/
def pySlice (l : List MetaParticle) (a b : Option Int) : List MetaParticle :=
  (l.take (sliceNorm l.length l.length b)).drop (sliceNorm l.length 0 a)

/-- `self.plist[self._unmask_index(idx)]` for one non-slice key. -/
def resolveOne (l : List MetaParticle) (k : PKey1) : Except PMError MetaParticle :=
  match unmask_index1 l k with
  | .error e => .error e
  | .ok i => pyElem l i

/-- `[self.plist[self._unmask_index(idx)] for idx in keyslice]`. -/
def resolveKeys (l : List MetaParticle) : List PKey1 → Except PMError (List MetaParticle)
  | [] => .ok []
  | k :: ks =>
    match resolveOne l k with
    | .error e => .error e
    | .ok x =>
      match resolveKeys l ks with
      | .error e => .error e
      | .ok rest => .ok (x :: rest)

/-- `[self.plist[idx] for idx, exists in enumerate(boolout) if exists]`.
(Python would raise `IndexError` if a flagged position fell beyond the
list; the claims only cover masks no longer than the list, where every
lookup succeeds.) -/
def maskSelect (l : List MetaParticle) (bs : List Bool) : List MetaParticle :=
  (bs.enum.filter fun ie => ie.2).filterMap fun ie => l.get? ie.1

/-- `[self.plist[idx] for idx, exists in enumerate(boolout) if not exists]`. -/
def maskDrop (l : List MetaParticle) (bs : List Bool) : List MetaParticle :=
  (bs.enum.filter fun ie => !ie.2).filterMap fun ie => l.get? ie.1

/-- `__getitem__`, list level: a numpy mask selects the flagged
positions; an iterable resolves each key; a single key resolves to one
entry, re-wrapped in a one-element list (`plout = [plout]`); a slice
yields the sublist unwrapped.  The result list is then passed to
`ParticleManager(plist=plout, fastnames=self.fastnames)`. -/
def getitemList (l : List MetaParticle) : PKey → Except PMError (List MetaParticle)
  | .mask bs => .ok (maskSelect l bs)
  | .keys ks => resolveKeys l ks
  | .slice a b => .ok (pySlice l a b)
  | .pos i => Except.map (fun x => [x]) (resolveOne l (.pos i))
  | .name s => Except.map (fun x => [x]) (resolveOne l (.name s))
  | .meta m => Except.map (fun x => [x]) (resolveOne l (.meta m))

/-- `__getitem__`, store level: returns a NEW `ParticleManager` holding a
fresh list object, carrying the receiver's `fastnames`. -/
def ParticleManager.getitem (σ : Store) (pm : ParticleManager) (k : PKey) :
    Store × Except PMError ParticleManager :=
  match getitemList (σ.get pm.plistRef) k with
  | .error e => (σ, .error e)
  | .ok plout =>
    let a := σ.alloc plout
    (a.1, .ok ⟨a.2, pm.fastnames⟩)

/-- `to_remove = [self._unmask_index(idx) for idx in keyslice]`. -/
def resolveIdxs (l : List MetaParticle) : List PKey1 → Except PMError (List Int)
  | [] => .ok []
  | k :: ks =>
    match unmask_index1 l k with
    | .error e => .error e
    | .ok i =>
      match resolveIdxs l ks with
      | .error e => .error e
      | .ok rest => .ok (i :: rest)

/-- Python `del l[i]` for an `int` index. -/
def pyDeleteAt (l : List MetaParticle) (i : Int) : Except PMError (List MetaParticle) :=
  let j : Int := if i < 0 then i + l.length else i
  if j < 0 then .error .indexError
  else if j.toNat < l.length then .ok (l.take j.toNat ++ l.drop (j.toNat + 1))
  else .error .indexError

/-- `__delitem__`, list level: a numpy mask keeps the unflagged positions
in one filtering pass; an iterable first resolves the full set of
positions to remove, then rebuilds the list by filtering over
`range(len(self))`; a single key deletes in place (`del`), a slice key
removing the slice's range. -/
def delitemList (l : List MetaParticle) : PKey → Except PMError (List MetaParticle)
  | .mask bs => .ok (maskDrop l bs)
  | .keys ks =>
    match resolveIdxs l ks with
    | .error e => .error e
    | .ok to_remove =>
      .ok (((List.range l.length).filter fun i : Nat =>
        ¬ to_remove.contains (Int.ofNat i)).filterMap l.get?)
  | .slice a b =>
    let lo := sliceNorm l.length 0 a
    let hi := sliceNorm l.length l.length b
    .ok (l.take lo ++ l.drop (max lo hi))
  | .pos i => pyDeleteAt l i
  | .name s =>
    match unmask_index1 l (.name s) with
    | .error e => .error e
    | .ok i => pyDeleteAt l i
  | .meta m =>
    match unmask_index1 l (.meta m) with
    | .error e => .error e
    | .ok i => pyDeleteAt l i

/-- `__delitem__`, store level: mutates the receiver's list in place. -/
def ParticleManager.delitem (σ : Store) (pm : ParticleManager) (k : PKey) :
    Store × Except PMError Unit :=
  match delitemList (σ.get pm.plistRef) k with
  | .error e => (σ, .error e)
  | .ok l' => (σ.set pm.plistRef l', .ok ())

-- ### Mask resolution: code vs. spec

/-- Spec-side mask selection: "boolean mask (sequence of booleans):
select positions where true", in order. -/
def maskSelectSpec (l : List MetaParticle) (bs : List Bool) : List MetaParticle :=
  ((l.zip bs).filter fun p => p.2).map fun p => p.1

/-- Spec-side mask deletion: keep exactly the entries at unflagged
positions, in their original relative order — one filtering pass. -/
def maskDropSpec (l : List MetaParticle) (bs : List Bool) : List MetaParticle :=
  ((l.zip bs).filter fun p => !p.2).map fun p => p.1

theorem mask_filter_eq_zip {α : Type} (f : Bool → Bool) (bs : List Bool) :
    ∀ (n : Nat) (L l : List α), (∀ i, L.get? (n + i) = l.get? i) →
    (((bs.enumFrom n).filter fun ie => f ie.2).filterMap fun ie => L.get? ie.1)
      = ((l.zip bs).filter fun p => f p.2).map fun p => p.1 := by
  induction bs with
  | nil =>
    intro n L l h
    cases l <;> simp
  | cons b bs ih =>
    intro n L l h
    rw [List.enumFrom_cons, List.filter_cons]
    cases l with
    | nil =>
      have h0 : L.get? n = none := by simpa using h 0
      have htl : ∀ i, L.get? (n + 1 + i) = ([] : List α).get? i := by
        intro i
        rw [show n + 1 + i = n + (i + 1) by omega]
        simpa using h (i + 1)
      have hre := ih (n + 1) L [] htl
      by_cases hb : f b = true
      · rw [if_pos (by simpa using hb), List.filterMap_cons]
        simp only [h0]
        rw [hre]
        simp
      · rw [if_neg (by simpa using hb), hre]
        simp
    | cons x l' =>
      have h0 : L.get? n = some x := by simpa using h 0
      have htl : ∀ i, L.get? (n + 1 + i) = l'.get? i := by
        intro i
        rw [show n + 1 + i = n + (i + 1) by omega]
        simpa using h (i + 1)
      have hre := ih (n + 1) L l' htl
      rw [List.zip_cons_cons, List.filter_cons]
      by_cases hb : f b = true
      · rw [if_pos (by simpa using hb), if_pos (by simpa using hb), List.filterMap_cons]
        simp only [h0]
        rw [hre, List.map_cons]
      · rw [if_neg (by simpa using hb), if_neg (by simpa using hb), hre]

theorem maskSelect_eq_spec (l : List MetaParticle) (bs : List Bool) :
    maskSelect l bs = maskSelectSpec l bs :=
  mask_filter_eq_zip (fun b => b) bs 0 l l (fun i => by simp)

theorem maskDrop_eq_spec (l : List MetaParticle) (bs : List Bool) :
    maskDrop l bs = maskDropSpec l bs :=
  mask_filter_eq_zip (fun b => !b) bs 0 l l (fun i => by simp)

theorem zipTruncLeft {α β : Type} : ∀ (l : List α) (bs : List β),
    l.zip bs = (l.take bs.length).zip bs
  | [], bs => by simp
  | x :: l, [] => by simp
  | x :: l, b :: bs => by
    simp only [List.zip_cons_cons, List.length_cons, List.take_succ_cons]
    rw [← zipTruncLeft l bs]

/-- C4: deleting with a boolean mask of the Engine's length removes
exactly the flagged positions in one filtering pass, keeping all other
entries in their original relative order. -/
theorem delitem_mask_is_single_filter (σ : Store) (pm : ParticleManager)
    (bs : List Bool) (hv : σ.valid pm.plistRef)
    (hl : bs.length = (σ.get pm.plistRef).length) :
    (ParticleManager.delitem σ pm (.mask bs)).2 = .ok () ∧
    (ParticleManager.delitem σ pm (.mask bs)).1.get pm.plistRef
      = maskDropSpec (σ.get pm.plistRef) bs := by
  refine ⟨rfl, ?_⟩
  show (σ.set pm.plistRef (maskDrop (σ.get pm.plistRef) bs)).get pm.plistRef = _
  rw [Store.get_set_self σ pm.plistRef _ hv, maskDrop_eq_spec]

theorem delitem_mask_is_single_filter_witness :
    (ParticleManager.delitem sampleStore samplePM1 (.mask [true, false])).2 = .ok () ∧
    (ParticleManager.delitem sampleStore samplePM1 (.mask [true, false])).1.get
        samplePM1.plistRef
      = maskDropSpec (sampleStore.get samplePM1.plistRef) [true, false] :=
  delitem_mask_is_single_filter sampleStore samplePM1 [true, false] (by decide) (by decide)

/-- C9: deleting with a boolean mask shorter than the Engine keeps only
the unflagged entries among the first `m` positions (`m` = mask length):
every entry at position ≥ m is removed as well, because the rebuild only
enumerates the mask. -/
theorem delitem_short_mask_truncates (σ : Store) (pm : ParticleManager)
    (bs : List Bool) (hv : σ.valid pm.plistRef)
    (hl : bs.length < (σ.get pm.plistRef).length) :
    (ParticleManager.delitem σ pm (.mask bs)).2 = .ok () ∧
    (ParticleManager.delitem σ pm (.mask bs)).1.get pm.plistRef
      = maskDropSpec ((σ.get pm.plistRef).take bs.length) bs ∧
    ((ParticleManager.delitem σ pm (.mask bs)).1.get pm.plistRef).length
      ≤ bs.length := by
  have hkey : (ParticleManager.delitem σ pm (.mask bs)).1.get pm.plistRef
      = maskDropSpec ((σ.get pm.plistRef).take bs.length) bs := by
    show (σ.set pm.plistRef (maskDrop (σ.get pm.plistRef) bs)).get pm.plistRef = _
    rw [Store.get_set_self σ pm.plistRef _ hv, maskDrop_eq_spec]
    unfold maskDropSpec
    rw [zipTruncLeft (σ.get pm.plistRef) bs]
  refine ⟨rfl, hkey, ?_⟩
  rw [hkey]
  unfold maskDropSpec
  rw [List.length_map]
  refine le_trans (List.length_filter_le _ _) ?_
  rw [List.length_zip]
  exact min_le_right _ _

theorem delitem_short_mask_truncates_witness :
    (ParticleManager.delitem sampleStore samplePM1 (.mask [true])).2 = .ok () ∧
    (ParticleManager.delitem sampleStore samplePM1 (.mask [true])).1.get
        samplePM1.plistRef
      = maskDropSpec ((sampleStore.get samplePM1.plistRef).take 1) [true] ∧
    ((ParticleManager.delitem sampleStore samplePM1 (.mask [true])).1.get
        samplePM1.plistRef).length ≤ 1 := by
  have h := delitem_short_mask_truncates sampleStore samplePM1 [true] (by decide) (by decide)
  simpa using h

-- ### Read-via-index: code vs. spec

/-- Spec-side resolution of a single non-iterable key: an integer is a
sequence-position reference; a name string or an entry object resolves
to the entry whose `name` field equals the key (unique when the Engine's
names are duplicate-free). -/
def specResolve1 (l : List MetaParticle) : PKey1 → Option MetaParticle
  | .pos i => (pyElem l i).toOption
  | .name s => l.find? fun m => m.name = s
  | .meta m => l.find? fun m2 => m2.name = m.name

/-- The single non-iterable keys for which the spec promises an Engine of
length exactly 1 (integer, name string, entry object — not a slice). -/
def isSingleKey : PKey → Bool
  | .pos _ => true
  | .name _ => true
  | .meta _ => true
  | .slice _ _ => false
  | .mask _ => false
  | .keys _ => false

/-- Spec-side `__getitem__` result: the resolved entries in resolution
order (single keys wrapped into a one-entry list, masks selecting the
flagged positions, key lists resolved independently in caller order). -/
def specGetitem (l : List MetaParticle) : PKey → Option (List MetaParticle)
  | .pos i => (specResolve1 l (.pos i)).map fun x => [x]
  | .name s => (specResolve1 l (.name s)).map fun x => [x]
  | .meta m => (specResolve1 l (.meta m)).map fun x => [x]
  | .slice a b => some (pySlice l a b)
  | .mask bs => some (maskSelectSpec l bs)
  | .keys ks => ks.mapM (specResolve1 l)

/-- Validity of a single key: the position is in Python range, or the
name is present in `_namemap`. -/
def pkey1Valid (l : List MetaParticle) : PKey1 → Bool
  | .pos i => decide (-(l.length : Int) ≤ i ∧ i < (l.length : Int))
  | .name s => (namemapFind l s).isSome
  | .meta m => (namemapFind l m.name).isSome

/-- Validity of an index key: slices are always valid, masks must match
the Engine's length, every member of a key list must be valid. -/
def pkeyValid (l : List MetaParticle) : PKey → Bool
  | .pos i => pkey1Valid l (.pos i)
  | .name s => pkey1Valid l (.name s)
  | .meta m => pkey1Valid l (.meta m)
  | .slice _ _ => true
  | .mask bs => decide (bs.length = l.length)
  | .keys ks => ks.all (pkey1Valid l)

theorem pyElem_ok_of_valid (l : List MetaParticle) (i : Int)
    (h1 : -(l.length : Int) ≤ i) (h2 : i < (l.length : Int)) :
    ∃ x, pyElem l i = .ok x := by
  unfold pyElem
  by_cases hneg : i < 0
  · rw [if_pos hneg, if_neg (by omega)]
    have hlt : (i + (l.length : Int)).toNat < l.length := by omega
    rw [List.get?_eq_get hlt]
    exact ⟨_, rfl⟩
  · rw [if_neg hneg, if_neg (by omega)]
    have hlt : i.toNat < l.length := by omega
    rw [List.get?_eq_get hlt]
    exact ⟨_, rfl⟩

theorem pyElem_nat (l : List MetaParticle) (j : Nat) (h : j < l.length) :
    pyElem l (j : Int) = .ok l[j] := by
  have h1 : ¬ ((j : Int) < 0) := by omega
  simp only [pyElem, if_neg h1]
  rw [show ((j : Int)).toNat = j from rfl, List.get?_eq_get h]
  rfl

theorem find?_name_of_namemap (l : List MetaParticle) (s : String) (j : Nat)
    (hnd : (plistNames l).Nodup) (hj : namemapFind l s = some j) :
    ∃ hjl : j < l.length,
      l.find? (fun m => m.name = s) = some (l.get ⟨j, hjl⟩) := by
  obtain ⟨hjl, hname⟩ := namemapFind_sound l s j hj
  refine ⟨hjl, ?_⟩
  unfold plistNames at hnd
  cases hf : l.find? (fun m => m.name = s) with
  | none =>
    rw [List.find?_eq_none] at hf
    exact absurd (by simpa using hname) (by simpa using hf _ (l.get_mem j hjl))
  | some y =>
    have hy : y.name = s := by simpa using List.find?_some hf
    have hym : y ∈ l := List.mem_of_find?_eq_some hf
    have hgm : l.get ⟨j, hjl⟩ ∈ l := l.get_mem j hjl
    rw [List.inj_on_of_nodup_map hnd hym hgm (by rw [hy, hname])]

theorem resolveOne_spec (l : List MetaParticle) (k : PKey1)
    (hnd : (plistNames l).Nodup) (hv : pkey1Valid l k = true) :
    ∃ x, resolveOne l k = .ok x ∧ specResolve1 l k = some x := by
  cases k with
  | pos i =>
    simp only [pkey1Valid, decide_eq_true_eq] at hv
    obtain ⟨x, hx⟩ := pyElem_ok_of_valid l i hv.1 hv.2
    refine ⟨x, ?_, ?_⟩
    · simp [resolveOne, unmask_index1, hx]
    · simp [specResolve1, hx, Except.toOption]
  | name s =>
    simp only [pkey1Valid] at hv
    obtain ⟨j, hj⟩ := Option.isSome_iff_exists.mp hv
    obtain ⟨hjl, hfind⟩ := find?_name_of_namemap l s j hnd hj
    refine ⟨l.get ⟨j, hjl⟩, ?_, by simpa [specResolve1] using hfind⟩
    simp [resolveOne, unmask_index1, hj, pyElem_nat l j hjl]
  | meta m =>
    simp only [pkey1Valid] at hv
    obtain ⟨j, hj⟩ := Option.isSome_iff_exists.mp hv
    obtain ⟨hjl, hfind⟩ := find?_name_of_namemap l m.name j hnd hj
    refine ⟨l.get ⟨j, hjl⟩, ?_, by simpa [specResolve1] using hfind⟩
    simp [resolveOne, unmask_index1, hj, pyElem_nat l j hjl]

theorem resolveKeys_spec (l : List MetaParticle) (hnd : (plistNames l).Nodup) :
    ∀ ks : List PKey1, (∀ k ∈ ks, pkey1Valid l k = true) →
    ∃ out, resolveKeys l ks = .ok out ∧ ks.mapM (specResolve1 l) = some out := by
  intro ks
  induction ks with
  | nil => intro _; exact ⟨[], rfl, rfl⟩
  | cons k ks ih =>
    intro hv
    obtain ⟨x, hx1, hx2⟩ := resolveOne_spec l k hnd (hv k (List.mem_cons_self k ks))
    obtain ⟨out, ho1, ho2⟩ := ih fun k' hk' => hv k' (List.mem_cons_of_mem k hk')
    refine ⟨x :: out, ?_, ?_⟩
    · simp [resolveKeys, hx1, ho1]
    · have ho2L : List.mapM.loop (specResolve1 l) ks [] = some out := ho2
      rw [List.mapM_cons, hx2]
      simp [ho2L]

/-- C5: for every valid index key, `__getitem__` succeeds with a NEW
Engine (never a bare entry) holding the resolved entries in resolution
order — agreeing with the spec-side resolution `specGetitem` — and
carrying forward the receiver's `fastnames`; a single non-iterable key
(integer, name string, or entry object) yields an Engine of length
exactly 1. -/
theorem getitem_returns_new_engine (σ : Store) (pm : ParticleManager) (k : PKey)
    (hnd : (plistNames (σ.get pm.plistRef)).Nodup)
    (hv : pkeyValid (σ.get pm.plistRef) k = true) :
    ∃ pm' out,
      (ParticleManager.getitem σ pm k).2 = .ok pm' ∧
      pm'.fastnames = pm.fastnames ∧
      pm'.plistRef = σ.next ∧
      specGetitem (σ.get pm.plistRef) k = some out ∧
      (ParticleManager.getitem σ pm k).1.get pm'.plistRef = out ∧
      (isSingleKey k = true → out.length = 1) := by
  have hcore : ∃ out, getitemList (σ.get pm.plistRef) k = .ok out ∧
      specGetitem (σ.get pm.plistRef) k = some out ∧
      (isSingleKey k = true → out.length = 1) := by
    cases k with
    | pos i =>
      obtain ⟨x, hx1, hx2⟩ := resolveOne_spec (σ.get pm.plistRef) (.pos i) hnd hv
      refine ⟨[x], ?_, ?_, fun _ => rfl⟩
      · simp [getitemList, hx1, Except.map]
      · simp [specGetitem, hx2]
    | name s =>
      obtain ⟨x, hx1, hx2⟩ := resolveOne_spec (σ.get pm.plistRef) (.name s) hnd hv
      refine ⟨[x], ?_, ?_, fun _ => rfl⟩
      · simp [getitemList, hx1, Except.map]
      · simp [specGetitem, hx2]
    | meta m =>
      obtain ⟨x, hx1, hx2⟩ := resolveOne_spec (σ.get pm.plistRef) (.meta m) hnd hv
      refine ⟨[x], ?_, ?_, fun _ => rfl⟩
      · simp [getitemList, hx1, Except.map]
      · simp [specGetitem, hx2]
    | slice a b =>
      exact ⟨pySlice (σ.get pm.plistRef) a b, rfl, rfl, fun h => nomatch h⟩
    | mask bs =>
      refine ⟨maskSelect (σ.get pm.plistRef) bs, rfl, ?_, fun h => nomatch h⟩
      simp [specGetitem, maskSelect_eq_spec]
    | keys ks =>
      have hall : ∀ k' ∈ ks, pkey1Valid (σ.get pm.plistRef) k' = true :=
        List.all_eq_true.mp hv
      obtain ⟨out, h1, h2⟩ := resolveKeys_spec (σ.get pm.plistRef) hnd ks hall
      exact ⟨out, h1, h2, fun h => nomatch h⟩
  obtain ⟨out, h1, h2, h3⟩ := hcore
  refine ⟨⟨σ.next, pm.fastnames⟩, out, ?_, rfl, rfl, h2, ?_, h3⟩
  · unfold ParticleManager.getitem
    rw [h1]
    rfl
  · unfold ParticleManager.getitem
    rw [h1]
    exact Store.get_alloc_self σ out


theorem getitem_returns_new_engine_witness :
    ∃ pm' out,
      (ParticleManager.getitem sampleStore samplePM1 (.name "circle_0")).2 = .ok pm' ∧
      pm'.fastnames = samplePM1.fastnames ∧
      pm'.plistRef = sampleStore.next ∧
      specGetitem (sampleStore.get samplePM1.plistRef) (.name "circle_0") = some out ∧
      (ParticleManager.getitem sampleStore samplePM1 (.name "circle_0")).1.get pm'.plistRef
        = out ∧
      (isSingleKey (.name "circle_0") = true → out.length = 1) :=
  getitem_returns_new_engine sampleStore samplePM1 (.name "circle_0")
    (by decide) (by decide)

/-- C10: Engines built by `merge` (`concat_particles`) and by
`sortby(inplace=False)` come from the bare `ParticleManager(plist=...)`
constructor and therefore have `fastnames = False` regardless of the
operands' settings, while `__getitem__` carries the receiver's
`fastnames` into its result. -/
theorem result_fastnames_policy :
    (∀ (σ : Store) (p1 p2 : ParticleManager) (alt ow : Bool) (pm' : ParticleManager),
      (concat_particles σ p1 p2 alt ow).2 = .ok pm' → pm'.fastnames = false) ∧
    (∀ (σ : Store) (pm : ParticleManager) (key : MetaParticle → String)
        (pm' : ParticleManager),
      (ParticleManager.sortby σ pm key false).2 = some pm' → pm'.fastnames = false) ∧
    (∀ (σ : Store) (pm : ParticleManager) (k : PKey) (pm' : ParticleManager),
      (ParticleManager.getitem σ pm k).2 = .ok pm' → pm'.fastnames = pm.fastnames) := by
  refine ⟨?_, ?_, ?_⟩
  · intro σ p1 p2 alt ow pm' h
    exact (concat_ok_ref σ p1 p2 alt ow pm' h).2
  · intro σ pm key pm' h
    unfold ParticleManager.sortby at h
    rw [if_neg (by simp)] at h
    injection h with h3
    rw [← h3]
  · intro σ pm k pm' h
    unfold ParticleManager.getitem at h
    cases hg : getitemList (σ.get pm.plistRef) k with
    | error e =>
      rw [hg] at h
      injection h
    | ok out =>
      rw [hg] at h
      injection h with h3
      rw [← h3]

theorem result_fastnames_policy_witness :
    ∃ pmA pmB pmC : ParticleManager,
      (concat_particles sampleStore samplePM1 samplePM2 false false).2 = .ok pmA ∧
      pmA.fastnames = false ∧
      (ParticleManager.sortby sampleStore samplePM1 (fun m => m.name) false).2
        = some pmB ∧
      pmB.fastnames = false ∧
      (ParticleManager.getitem sampleStore samplePM1 (.pos 0)).2 = .ok pmC ∧
      pmC.fastnames = samplePM1.fastnames := by
  refine ⟨⟨3, false⟩, ⟨2, false⟩, ⟨2, true⟩, rfl, ?_, rfl, ?_, rfl, ?_⟩
  · exact (result_fastnames_policy.1) sampleStore samplePM1 samplePM2 false false
      ⟨3, false⟩ rfl
  · exact (result_fastnames_policy.2.1) sampleStore samplePM1 (fun m => m.name)
      ⟨2, false⟩ rfl
  · exact (result_fastnames_policy.2.2) sampleStore samplePM1 (.pos 0) ⟨2, true⟩ rfl
